import Mathlib

/-
Verification of the credential-discovery and expiration-notification pipeline
of azure-secrets-checker. The definitions below are a shallow embedding of the
TypeScript sources: `azureService.ts` (day calculation, credential processing,
reconciliation, threshold filter, pagination), `scheduler.ts` (run body,
immediate check, service test) and `mailService.ts` (empty-notification
behaviour). Timestamps are modelled as integer milliseconds since the epoch,
matching the unit of the dayjs fractional-day diff used by the source.
-/

namespace Checker

/-- Milliseconds in one day, the unit underlying dayjs `diff(now, 'day', true)`. -/
def msPerDay : Int := 86400000

/-- Ceiling of the exact quotient a / b, as JavaScript `Math.ceil` applied to the
exact (fractional) quotient; expressed through floor division of the negation. -/
def ceilDiv (a b : Int) : Int := -((-a).fdiv b)

/-- `calculateDaysUntilExpiration` from azureService.ts:
`Math.ceil(expiryDate.diff(now, 'day', true))`, i.e. the ceiling of the
fractional number of days between `now` and `endDateTime`. -/
def calculateDaysUntilExpiration (now endDateTime : Int) : Int :=
  ceilDiv (endDateTime - now) msPerDay

/-- The `source` tag of a processed credential. -/
inductive CredSource where
  | servicePrincipal
  | application
deriving DecidableEq, Repr

/-- A raw `passwordCredential` entry as returned by the directory. -/
structure PasswordCredential where
  keyId : String
  displayName : Option String
  endDateTime : Int
deriving DecidableEq, Repr

/-- A raw `keyCredential` entry as returned by the directory. -/
structure KeyCredential where
  keyId : String
  displayName : Option String
  endDateTime : Int
  type : String
  usage : String
deriving DecidableEq, Repr

/-- `SecretInfo`: a processed password credential descriptor. -/
structure SecretInfo where
  keyId : String
  displayName : Option String
  endDateTime : Int
  daysUntilExpiration : Int
  isExpired : Bool
  source : CredSource
deriving DecidableEq, Repr

/-- `CertificateInfo`: a processed key credential descriptor. -/
structure CertificateInfo where
  keyId : String
  displayName : Option String
  endDateTime : Int
  daysUntilExpiration : Int
  isExpired : Bool
  type : String
  usage : String
  source : CredSource
deriving DecidableEq, Repr

/-- `processPasswordCredentials` from azureService.ts. -/
def processPasswordCredentials (now : Int) (credentials : List PasswordCredential)
    (source : CredSource) : List SecretInfo :=
  credentials.map fun cred =>
    { keyId := cred.keyId
      displayName := cred.displayName
      endDateTime := cred.endDateTime
      daysUntilExpiration := calculateDaysUntilExpiration now cred.endDateTime
      isExpired := decide (calculateDaysUntilExpiration now cred.endDateTime ≤ 0)
      source := source }

/-- `processKeyCredentials` from azureService.ts. -/
def processKeyCredentials (now : Int) (credentials : List KeyCredential)
    (source : CredSource) : List CertificateInfo :=
  credentials.map fun cred =>
    { keyId := cred.keyId
      displayName := cred.displayName
      endDateTime := cred.endDateTime
      daysUntilExpiration := calculateDaysUntilExpiration now cred.endDateTime
      isExpired := decide (calculateDaysUntilExpiration now cred.endDateTime ≤ 0)
      type := cred.type
      usage := cred.usage
      source := source }

/-- A service-principal record (fields selected by `getServicePrincipals`). -/
structure ServicePrincipal where
  id : String
  appId : String
  displayName : String
  passwordCredentials : List PasswordCredential
  keyCredentials : List KeyCredential
deriving DecidableEq, Repr

/-- An application record (fields selected by `getApplications`). -/
structure Application where
  id : String
  appId : String
  displayName : String
  passwordCredentials : List PasswordCredential
  keyCredentials : List KeyCredential
deriving DecidableEq, Repr

/-- `ApplicationWithSecrets`: the merged per-application view. -/
structure ApplicationWithSecrets where
  id : String
  appId : String
  displayName : String
  secrets : List SecretInfo
  certificates : List CertificateInfo
deriving DecidableEq, Repr

/-- The common shape of one record's contribution to the merge loop of
`getAllApplicationsWithSecrets`: identity fields plus its processed credentials. -/
structure MergeRec where
  id : String
  appId : String
  displayName : String
  secrets : List SecretInfo
  certificates : List CertificateInfo
deriving DecidableEq, Repr

/-- Contribution of one service-principal record, with `source = servicePrincipal`. -/
def ServicePrincipal.toRec (now : Int) (sp : ServicePrincipal) : MergeRec :=
  { id := sp.id
    appId := sp.appId
    displayName := sp.displayName
    secrets := processPasswordCredentials now sp.passwordCredentials .servicePrincipal
    certificates := processKeyCredentials now sp.keyCredentials .servicePrincipal }

/-- Contribution of one application record, with `source = application`. -/
def Application.toRec (now : Int) (app : Application) : MergeRec :=
  { id := app.id
    appId := app.appId
    displayName := app.displayName
    secrets := processPasswordCredentials now app.passwordCredentials .application
    certificates := processKeyCredentials now app.keyCredentials .application }

/-- The insertion-ordered `Map<string, ApplicationWithSecrets>` of the merge loop,
as an association list in insertion order with (by construction) unique keys. -/
abbrev AppMap : Type := List (String × ApplicationWithSecrets)

/-- `appMap.get(k)`: first (and only) entry with the given key. -/
def lookupView : AppMap → String → Option ApplicationWithSecrets
  | [], _ => none
  | kv :: rest, a => if kv.1 = a then some kv.2 else lookupView rest a

/-- In-place update of the entry holding key `a`, as mutation of the stored view. -/
def updateView : AppMap → String → (ApplicationWithSecrets → ApplicationWithSecrets) → AppMap
  | [], _, _ => []
  | kv :: rest, a, f =>
    if kv.1 = a then (kv.1, f kv.2) :: rest else kv :: updateView rest a f

/-- The fresh view inserted when a record's appId is not yet in the map:
identity fields from the record, empty credential lists. -/
def emptyView (r : MergeRec) : ApplicationWithSecrets :=
  { id := r.id
    appId := r.appId
    displayName := r.displayName
    secrets := []
    certificates := [] }

/-- The two `push(...)` calls appending a record's processed credentials. -/
def pushCreds (v : ApplicationWithSecrets) (r : MergeRec) : ApplicationWithSecrets :=
  { v with
      secrets := v.secrets ++ r.secrets
      certificates := v.certificates ++ r.certificates }

/-- One iteration of either forEach loop in `getAllApplicationsWithSecrets`:
insert a fresh view if the key is absent, then append the record's credentials. -/
def mergeStep (m : AppMap) (r : MergeRec) : AppMap :=
  let m1 := if (lookupView m r.appId).isSome then m
            else m ++ [(r.appId, emptyView r)]
  updateView m1 r.appId fun v => pushCreds v r

/-- `getAllApplicationsWithSecrets` from azureService.ts: fold the
service-principal loop, then the application loop, then take the map's values
in insertion order. The two directory listings are passed in as arguments. -/
def getAllApplicationsWithSecrets (now : Int) (servicePrincipals : List ServicePrincipal)
    (applications : List Application) : List ApplicationWithSecrets :=
  let m0 : AppMap := []
  let m1 := servicePrincipals.foldl (fun m sp => mergeStep m (sp.toRec now)) m0
  let m2 := applications.foldl (fun m app => mergeStep m (app.toRec now)) m1
  m2.map Prod.snd

/-- The per-secret filter predicate of `getApplicationsExpiringInDays`:
`days.includes(secret.daysUntilExpiration) || secret.isExpired`. -/
def secretMatches (days : List Int) (secret : SecretInfo) : Bool :=
  days.contains secret.daysUntilExpiration || secret.isExpired

/-- The per-certificate filter predicate of `getApplicationsExpiringInDays`. -/
def certMatches (days : List Int) (cert : CertificateInfo) : Bool :=
  days.contains cert.daysUntilExpiration || cert.isExpired

/-- `getApplicationsExpiringInDays` from azureService.ts, acting on the result
of `getAllApplicationsWithSecrets` (passed in as `allApps`): keep applications
with at least one matching credential, then restrict each kept view to its
matching credentials. -/
def getApplicationsExpiringInDays (days : List Int)
    (allApps : List ApplicationWithSecrets) : List ApplicationWithSecrets :=
  (allApps.filter fun app =>
      decide (0 < (app.secrets.filter (secretMatches days)).length) ||
      decide (0 < (app.certificates.filter (certMatches days)).length)).map fun app =>
    { app with
        secrets := app.secrets.filter (secretMatches days)
        certificates := app.certificates.filter (certMatches days) }

/-- Error thrown by `makeGraphRequest` when a page request fails with a
non-success status; it records the failing URL. -/
structure DirectoryError where
  url : String
deriving DecidableEq, Repr

/-- One page of a paginated Graph response: its `value` array (absent modelled
as `[]`, matching `response[valueKey] || []`) and the optional
`@odata.nextLink`. -/
structure PageResponse (T : Type) where
  value : List T
  nextLink : Option String

/-- The while loop of `getAllPagedResults`, with the accumulator and current
URL explicit; `fetch` is the outcome of `makeGraphRequest` per URL and `fuel`
bounds the number of pages followed. A `none` result means the loop has not
finished within `fuel` pages (the source would still be looping). -/
def getAllPagedResultsAux {T : Type} (fetch : String → Except DirectoryError (PageResponse T)) :
    Nat → List T → Option String → Option (Except DirectoryError (List T))
  | _, results, none => some (Except.ok results)
  | 0, _, some _ => none
  | fuel + 1, results, some url =>
    match fetch url with
    | Except.error e => some (Except.error e)
    | Except.ok resp => getAllPagedResultsAux fetch fuel (results ++ resp.value) resp.nextLink

/-- `getAllPagedResults` from azureService.ts: start with an empty accumulator
at the initial URL. -/
def getAllPagedResults {T : Type} (fetch : String → Except DirectoryError (PageResponse T))
    (fuel : Nat) (url : String) : Option (Except DirectoryError (List T)) :=
  getAllPagedResultsAux fetch fuel [] (some url)

/-- Modelled from the spec (directory client contract): a full listing either
concatenates the `value` arrays of every page reached by following next-page
links until none remains, or, when any page request fails, is exactly that
error with no partial list. -/
inductive FetchChain {T : Type} (fetch : String → Except DirectoryError (PageResponse T)) :
    Option String → Except DirectoryError (List T) → Prop where
  | done : FetchChain fetch none (Except.ok [])
  | fail (url : String) (e : DirectoryError) :
      fetch url = Except.error e → FetchChain fetch (some url) (Except.error e)
  | more (url : String) (resp : PageResponse T) (l : List T) :
      fetch url = Except.ok resp → FetchChain fetch resp.nextLink (Except.ok l) →
      FetchChain fetch (some url) (Except.ok (resp.value ++ l))
  | moreFail (url : String) (resp : PageResponse T) (e : DirectoryError) :
      fetch url = Except.ok resp → FetchChain fetch resp.nextLink (Except.error e) →
      FetchChain fetch (some url) (Except.error e)

/-- Prepend an already-fetched accumulator to a listing outcome; an error
outcome absorbs (discards) the accumulator. -/
def withAcc {T : Type} (acc : List T) :
    Except DirectoryError (List T) → Except DirectoryError (List T)
  | Except.ok l => Except.ok (acc ++ l)
  | Except.error e => Except.error e

/-- Outcome of one scheduler-run collaborator, per the error taxonomy. -/
inductive RunError where
  | authError
  | directoryError (url : String)
  | deliveryError
deriving DecidableEq, Repr

/-- Tag of a flattened credential summary in a notification. -/
inductive SummaryType where
  | secret
  | certificate
deriving DecidableEq, Repr

/-- One flattened credential summary inside a notification item. -/
structure CredentialSummary where
  type : SummaryType
  displayName : Option String
  endDateTime : Int
  daysUntilExpiration : Int
  isExpired : Bool
deriving DecidableEq, Repr

/-- `ExpirationNotification`: application name and id plus the flattened
credential summaries. -/
structure ExpirationNotification where
  appName : String
  appId : String
  secrets : List CredentialSummary
deriving DecidableEq, Repr

/-- The notification construction inside `Scheduler.checkSecretExpirations`:
map each application to a notification whose `secrets` flattens its secret and
certificate summaries, then drop notifications with no summaries. -/
def buildNotifications (apps : List ApplicationWithSecrets) : List ExpirationNotification :=
  (apps.map fun app =>
    { appName := app.displayName
      appId := app.appId
      secrets :=
        (app.secrets.map fun s =>
          { type := SummaryType.secret
            displayName := s.displayName
            endDateTime := s.endDateTime
            daysUntilExpiration := s.daysUntilExpiration
            isExpired := s.isExpired }) ++
        (app.certificates.map fun c =>
          { type := SummaryType.certificate
            displayName := c.displayName
            endDateTime := c.endDateTime
            daysUntilExpiration := c.daysUntilExpiration
            isExpired := c.isExpired }) }).filter
    fun n => decide (0 < n.secrets.length)

/-- Outcomes of the effectful collaborators of one scheduler run: the result of
`azureService.getApplicationsExpiringInDays(thresholds)` and the result of
`mailService.sendNotification` on a given notification list. -/
structure SchedulerEnv where
  fetchExpiring : Except RunError (List ApplicationWithSecrets)
  deliver : List ExpirationNotification → Except RunError Unit

/-- The try-block of `Scheduler.checkSecretExpirations`: fetch the expiring
applications, return early when none, build notifications, deliver when there
is at least one. -/
def checkSecretExpirationsBody (env : SchedulerEnv) : Except RunError Unit := do
  let apps ← env.fetchExpiring
  if apps.length = 0 then return ()
  let notifications := buildNotifications apps
  if 0 < notifications.length then env.deliver notifications
  else return ()

/-- `Scheduler.checkSecretExpirations`: its catch clause logs the error and
does not rethrow, so any body error is swallowed. -/
def checkSecretExpirations (env : SchedulerEnv) : Except RunError Unit :=
  match checkSecretExpirationsBody env with
  | Except.ok _ => Except.ok ()
  | Except.error _ => Except.ok ()

/-- `Scheduler.runImmediateCheck`: logs, then awaits `checkSecretExpirations`. -/
def runImmediateCheck (env : SchedulerEnv) : Except RunError Unit :=
  checkSecretExpirations env

/-- `Scheduler.testServices`: the Azure listing runs inside a try whose catch
rethrows; `mailService.testConnection` returns a boolean (it catches its own
failures) that is only logged. -/
def testServices (azureTest : Except RunError (List ApplicationWithSecrets))
    (mailTest : Bool) : Except RunError Unit :=
  match azureTest with
  | Except.error e => Except.error e
  | Except.ok _ => Except.ok ()

/-- Which delivery backend the mail configuration selected at construction. -/
inductive MailProviderConfig where
  | smtp
  | acs
deriving DecidableEq, Repr

/-- `MailService.sendNotification`: return immediately when the notification
list is empty, otherwise dispatch through the configured backend. The second
component counts delivery-backend invocations. -/
def sendNotification (provider : MailProviderConfig)
    (smtpSend acsSend : Except RunError Unit)
    (notifications : List ExpirationNotification) : Except RunError Unit × Nat :=
  if notifications.length = 0 then (Except.ok (), 0)
  else
    match provider with
    | MailProviderConfig.smtp => (smtpSend, 1)
    | MailProviderConfig.acs => (acsSend, 1)

/-- Keys of the merge map, in insertion order. -/
def keysOf (m : AppMap) : List String := m.map Prod.fst

/-- Every stored view carries the appId it is keyed under; an invariant of the
merge map. -/
def keyedByAppId (m : AppMap) : Prop := ∀ kv ∈ m, kv.2.appId = kv.1

/-- The records of a merge-loop input contributing to a given appId, in
processing order. -/
def recsFor (a : String) (rs : List MergeRec) : List MergeRec :=
  rs.filter fun r => decide (r.appId = a)

/-- Concatenation of the secret contributions of a record list, in order. -/
def allSecrets : List MergeRec → List SecretInfo
  | [] => []
  | r :: rest => r.secrets ++ allSecrets rest

/-- Concatenation of the certificate contributions of a record list, in order. -/
def allCerts : List MergeRec → List CertificateInfo
  | [] => []
  | r :: rest => r.certificates ++ allCerts rest

/-- A view extended by the credential contributions of a record list. -/
def extendView (v : ApplicationWithSecrets) (hits : List MergeRec) : ApplicationWithSecrets :=
  { v with
      secrets := v.secrets ++ allSecrets hits
      certificates := v.certificates ++ allCerts hits }

/-- What the merge loop leaves under a key, as a function of what was there
before the loop and of the records contributing to that key. -/
def mergeLookupSpec (prev : Option ApplicationWithSecrets) (hits : List MergeRec) :
    Option ApplicationWithSecrets :=
  match prev, hits with
  | some v, hits => some (extendView v hits)
  | none, [] => none
  | none, r :: rest => some (extendView (emptyView r) (r :: rest))

/-- Keys first inserted by the merge loop, in first-insertion order, given the
keys already present. -/
def freshKeys (seen : List String) : List MergeRec → List String
  | [] => []
  | r :: rest =>
    if r.appId ∈ seen then freshKeys seen rest
    else r.appId :: freshKeys (seen ++ [r.appId]) rest

/-- The full merge-loop input of `getAllApplicationsWithSecrets`:
service-principal contributions first, then application contributions. -/
def mergeRecsOf (now : Int) (sps : List ServicePrincipal) (apps : List Application) :
    List MergeRec :=
  sps.map (ServicePrincipal.toRec now) ++ apps.map (Application.toRec now)

/-- Contributions of the service-principal collection to a given appId. -/
def spRecsFor (now : Int) (a : String) (sps : List ServicePrincipal) : List MergeRec :=
  (sps.filter fun sp => decide (sp.appId = a)).map (ServicePrincipal.toRec now)

/-- Contributions of the application collection to a given appId. -/
def appRecsFor (now : Int) (a : String) (apps : List Application) : List MergeRec :=
  (apps.filter fun ap => decide (ap.appId = a)).map (Application.toRec now)

/-- A secret matches the threshold filter: already expired, or its
days-to-expiration is one of the thresholds. -/
def MatchingSecret (days : List Int) (s : SecretInfo) : Prop :=
  s.isExpired = true ∨ s.daysUntilExpiration ∈ days

/-- A certificate matches the threshold filter. -/
def MatchingCert (days : List Int) (c : CertificateInfo) : Prop :=
  c.isExpired = true ∨ c.daysUntilExpiration ∈ days

/-- An application has at least one matching credential. -/
def HasMatch (days : List Int) (app : ApplicationWithSecrets) : Prop :=
  (∃ s ∈ app.secrets, MatchingSecret days s) ∨ (∃ c ∈ app.certificates, MatchingCert days c)

/-- `w` is `app` restricted to its matching credentials: same identity fields,
and a credential belongs to `w` precisely when it belongs to `app` and
matches. -/
def ViewRestricts (days : List Int) (app w : ApplicationWithSecrets) : Prop :=
  w.id = app.id ∧ w.appId = app.appId ∧ w.displayName = app.displayName ∧
  (∀ s, s ∈ w.secrets ↔ s ∈ app.secrets ∧ MatchingSecret days s) ∧
  (∀ c, c ∈ w.certificates ↔ c ∈ app.certificates ∧ MatchingCert days c)

/-- Concrete paginated directory with a failing second page. -/
def pagedFetchEx : String → Except DirectoryError (PageResponse Nat) :=
  fun url =>
    if url = "page1" then Except.ok { value := [1, 2], nextLink := some "page2" }
    else Except.error { url := url }

/-- Concrete run environment whose pipeline raises an authentication error. -/
def failingEnv : SchedulerEnv :=
  { fetchExpiring := Except.error RunError.authError
    deliver := fun _ => Except.ok () }

/-- Sample secret credential expiring exactly five days after the epoch. -/
def credSoon : PasswordCredential :=
  { keyId := "key-soon", displayName := some "soon", endDateTime := 432000000 }

/-- Sample certificate credential expiring 400 days after the epoch. -/
def credFar : KeyCredential :=
  { keyId := "key-far", displayName := some "far", endDateTime := 34560000000,
    type := "AsymmetricX509Cert", usage := "Verify" }

/-- Sample service principal holding the five-day secret under appId x. -/
def spX : ServicePrincipal :=
  { id := "sp-obj", appId := "x", displayName := "App X",
    passwordCredentials := [credSoon], keyCredentials := [] }

/-- Sample application registration holding the 400-day certificate under the
same appId x. -/
def apX : Application :=
  { id := "app-obj", appId := "x", displayName := "App X Reg",
    passwordCredentials := [], keyCredentials := [credFar] }

/-- The merged view the pipeline builds from `spX` and `apX` at retrieval
instant 0. -/
def vX : ApplicationWithSecrets :=
  { id := "sp-obj", appId := "x", displayName := "App X",
    secrets := [{ keyId := "key-soon", displayName := some "soon",
                  endDateTime := 432000000, daysUntilExpiration := 5,
                  isExpired := false, source := CredSource.servicePrincipal }],
    certificates := [{ keyId := "key-far", displayName := some "far",
                       endDateTime := 34560000000, daysUntilExpiration := 400,
                       isExpired := false, type := "AsymmetricX509Cert",
                       usage := "Verify", source := CredSource.application }] }

/-- `vX` restricted by thresholds containing 5 but not 400: the certificate is
dropped. -/
def wX : ApplicationWithSecrets :=
  { vX with certificates := [] }

/-- Credential-free service principal under its own appId y. -/
def spY : ServicePrincipal :=
  { id := "sp-y", appId := "y", displayName := "App Y",
    passwordCredentials := [], keyCredentials := [] }

/-- Credential-free service principal under appId dup, object a. -/
def spA : ServicePrincipal :=
  { id := "obj-a", appId := "dup", displayName := "A",
    passwordCredentials := [], keyCredentials := [] }

/-- Credential-free service principal under the same appId dup, object b. -/
def spB : ServicePrincipal :=
  { id := "obj-b", appId := "dup", displayName := "B",
    passwordCredentials := [], keyCredentials := [] }

theorem ceilDiv_bounds (a b : Int) (hb : 0 < b) :
    b * (ceilDiv a b - 1) < a ∧ a ≤ b * ceilDiv a b := by
  have h := Int.fdiv_add_fmod (-a) b
  have h1 : 0 ≤ (-a).fmod b := Int.fmod_nonneg' (-a) hb
  have h2 : (-a).fmod b < b := Int.fmod_lt_of_pos (-a) hb
  unfold ceilDiv
  constructor <;> nlinarith [h, h1, h2]

theorem ceilDiv_eq_of_bounds (a b q : Int) (hb : 0 < b)
    (hlow : b * (q - 1) < a) (hhigh : a ≤ b * q) : ceilDiv a b = q := by
  obtain ⟨g1, g2⟩ := ceilDiv_bounds a b hb
  have hcq : ceilDiv a b ≤ q := by
    have hm : b * (ceilDiv a b - 1) < b * q := lt_of_lt_of_le g1 hhigh
    have := lt_of_mul_lt_mul_left hm (le_of_lt hb)
    omega
  have hqc : q ≤ ceilDiv a b := by
    have hm : b * (q - 1) < b * ceilDiv a b := lt_of_lt_of_le hlow g2
    have := lt_of_mul_lt_mul_left hm (le_of_lt hb)
    omega
  omega

theorem ceilDiv_eq_ceil (a b : Int) (hb : 0 < b) :
    ceilDiv a b = ⌈(a : ℚ) / (b : ℚ)⌉ := by
  symm
  rw [Int.ceil_eq_iff]
  obtain ⟨g1, g2⟩ := ceilDiv_bounds a b hb
  have hbq : (0 : ℚ) < (b : ℚ) := by exact_mod_cast hb
  constructor
  · rw [lt_div_iff₀ hbq]
    have hz : (ceilDiv a b - 1) * b < a := by linarith [g1, mul_comm b (ceilDiv a b - 1)]
    exact_mod_cast hz
  · rw [div_le_iff₀ hbq]
    have hz : a ≤ ceilDiv a b * b := by linarith [g2, mul_comm b (ceilDiv a b)]
    exact_mod_cast hz

/-- C4: `daysUntilExpiration` is the ceiling of the fractional number of days
between the retrieval instant and the expiration: an expiration strictly
between `now` and `now + 24h` yields `1`, and an expiration exactly at `now`
yields `0`. -/
theorem daysUntilExpiration_is_ceiling (now e : Int) :
    calculateDaysUntilExpiration now e = ⌈((e : ℚ) - (now : ℚ)) / (msPerDay : ℚ)⌉ ∧
    (now < e → e < now + msPerDay → calculateDaysUntilExpiration now e = 1) ∧
    calculateDaysUntilExpiration now now = 0 := by
  refine ⟨?_, ?_, ?_⟩
  · unfold calculateDaysUntilExpiration
    rw [ceilDiv_eq_ceil _ _ (by norm_num [msPerDay])]
    push_cast
    ring_nf
  · intro h1 h2
    unfold calculateDaysUntilExpiration
    apply ceilDiv_eq_of_bounds _ _ _ (by norm_num [msPerDay])
    · simp only [msPerDay] at h2 ⊢
      omega
    · simp only [msPerDay] at h2 ⊢
      omega
  · unfold calculateDaysUntilExpiration ceilDiv
    simp

/-- Witness for C4: an expiration 12 hours ahead of the epoch yields 1, and an
expiration exactly at the retrieval instant yields 0. -/
theorem daysUntilExpiration_is_ceiling_witness :
    (0 : Int) < 43200000 ∧ (43200000 : Int) < 0 + msPerDay ∧
    calculateDaysUntilExpiration 0 43200000 = 1 ∧
    calculateDaysUntilExpiration 0 0 = 0 :=
  ⟨by decide, by decide,
   (daysUntilExpiration_is_ceiling 0 43200000).2.1 (by decide) (by decide),
   (daysUntilExpiration_is_ceiling 0 0).2.2⟩

theorem getAllPagedResultsAux_chain {T : Type}
    (fetch : String → Except DirectoryError (PageResponse T)) :
    ∀ (fuel : Nat) (acc : List T) (next : Option String) (r : Except DirectoryError (List T)),
      getAllPagedResultsAux fetch fuel acc next = some r →
      ∃ r0, FetchChain fetch next r0 ∧ r = withAcc acc r0 := by
  intro fuel
  induction fuel with
  | zero =>
    intro acc next r h
    cases next with
    | none =>
      simp only [getAllPagedResultsAux, Option.some.injEq] at h
      exact ⟨Except.ok [], FetchChain.done, by rw [← h]; simp [withAcc]⟩
    | some url => simp [getAllPagedResultsAux] at h
  | succ fuel ih =>
    intro acc next r h
    cases next with
    | none =>
      simp only [getAllPagedResultsAux, Option.some.injEq] at h
      exact ⟨Except.ok [], FetchChain.done, by rw [← h]; simp [withAcc]⟩
    | some url =>
      cases hf : fetch url with
      | error e =>
        simp only [getAllPagedResultsAux, hf, Option.some.injEq] at h
        exact ⟨Except.error e, FetchChain.fail url e hf, by rw [← h]; rfl⟩
      | ok resp =>
        simp only [getAllPagedResultsAux, hf] at h
        obtain ⟨r0, hc, hr⟩ := ih (acc ++ resp.value) resp.nextLink r h
        cases r0 with
        | ok l =>
          refine ⟨Except.ok (resp.value ++ l), FetchChain.more url resp l hf hc, ?_⟩
          rw [hr]
          simp [withAcc, List.append_assoc]
        | error e =>
          exact ⟨Except.error e, FetchChain.moreFail url resp e hf hc, by rw [hr]; rfl⟩

/-- C6: whenever the pagination loop terminates, its outcome satisfies the
listing contract `FetchChain`: a success is the concatenation of the `value`
arrays of every page up to the last (no next link), and any failing page makes
the whole listing that error, with no partial list of earlier pages. -/
theorem getAllPagedResults_meets_listing_contract {T : Type}
    (fetch : String → Except DirectoryError (PageResponse T))
    (fuel : Nat) (url : String) (r : Except DirectoryError (List T))
    (h : getAllPagedResults fetch fuel url = some r) :
    FetchChain fetch (some url) r := by
  obtain ⟨r0, hc, hr⟩ := getAllPagedResultsAux_chain fetch fuel [] (some url) r h
  cases r0 with
  | ok l =>
    rw [hr]
    simpa [withAcc] using hc
  | error e =>
    rw [hr]
    simpa [withAcc] using hc

/-- Witness for C6: a listing whose second page fails yields exactly the
directory error for that page, and this outcome satisfies the contract. -/
theorem getAllPagedResults_meets_listing_contract_witness :
    getAllPagedResults pagedFetchEx 5 "page1" = some (Except.error { url := "page2" }) ∧
    FetchChain pagedFetchEx (some "page1") (Except.error { url := "page2" }) := by
  have h : getAllPagedResults pagedFetchEx 5 "page1" =
      some (Except.error { url := "page2" }) := by rfl
  exact ⟨h, getAllPagedResults_meets_listing_contract pagedFetchEx 5 "page1" _ h⟩

/-- C7: every error raised inside the scheduled/immediate check body is caught
inside the Scheduler (the run completes normally), while an error raised by
the Azure test inside `testServices` propagates to its caller. -/
theorem scheduler_error_isolation :
    (∀ env : SchedulerEnv, checkSecretExpirations env = Except.ok ()) ∧
    (∀ (e : RunError) (mailTest : Bool),
      testServices (Except.error e) mailTest = Except.error e) := by
  constructor
  · intro env
    unfold checkSecretExpirations
    cases checkSecretExpirationsBody env <;> rfl
  · intro e _mailTest
    rfl

/-- C8 counterexample: in a run whose pipeline raises an authentication error,
`runImmediateCheck` still returns normally; the error does not propagate to
its caller. -/
theorem runImmediateCheck_swallows_counterexample :
    checkSecretExpirationsBody failingEnv = Except.error RunError.authError ∧
    runImmediateCheck failingEnv = Except.ok () ∧
    runImmediateCheck failingEnv ≠ Except.error RunError.authError :=
  ⟨rfl, rfl, fun h => Except.noConfusion h⟩

/-- C8 amended: `runImmediateCheck` always returns normally; pipeline errors
are swallowed by the catch inside `checkSecretExpirations`, so the HTTP layer
never observes a failure from the check-now route body. -/
theorem runImmediateCheck_always_ok (env : SchedulerEnv) :
    runImmediateCheck env = Except.ok () := by
  unfold runImmediateCheck checkSecretExpirations
  cases checkSecretExpirationsBody env <;> rfl

/-- C9: calling `sendNotification` with an empty notification list performs no
delivery call on either backend and returns normally. -/
theorem sendNotification_empty_noop (provider : MailProviderConfig)
    (smtpSend acsSend : Except RunError Unit) :
    sendNotification provider smtpSend acsSend [] = (Except.ok (), 0) := rfl

theorem lookupView_append_of_none (m l : AppMap) (a : String)
    (h : lookupView m a = none) : lookupView (m ++ l) a = lookupView l a := by
  induction m with
  | nil => rfl
  | cons kv rest ih =>
    by_cases hk : kv.1 = a
    · simp [lookupView, hk] at h
    · simp only [lookupView, if_neg hk] at h
      simp only [List.cons_append, lookupView, if_neg hk]
      exact ih h

theorem lookupView_append_of_some (m l : AppMap) (a : String) (v : ApplicationWithSecrets)
    (h : lookupView m a = some v) : lookupView (m ++ l) a = some v := by
  induction m with
  | nil => simp [lookupView] at h
  | cons kv rest ih =>
    by_cases hk : kv.1 = a
    · simp only [lookupView, if_pos hk] at h
      simp only [List.cons_append, lookupView, if_pos hk]
      exact h
    · simp only [lookupView, if_neg hk] at h
      simp only [List.cons_append, lookupView, if_neg hk]
      exact ih h

theorem lookupView_updateView_self (m : AppMap) (a : String)
    (f : ApplicationWithSecrets → ApplicationWithSecrets) :
    lookupView (updateView m a f) a = (lookupView m a).map f := by
  induction m with
  | nil => rfl
  | cons kv rest ih =>
    by_cases hk : kv.1 = a
    · simp [updateView, lookupView, hk]
    · simp [updateView, lookupView, hk, ih]

theorem lookupView_updateView_ne (m : AppMap) (k a : String)
    (f : ApplicationWithSecrets → ApplicationWithSecrets) (h : k ≠ a) :
    lookupView (updateView m k f) a = lookupView m a := by
  induction m with
  | nil => rfl
  | cons kv rest ih =>
    simp only [updateView]
    by_cases hk : kv.1 = k
    · rw [if_pos hk]
      have hka : ¬ kv.1 = a := by rw [hk]; exact h
      simp only [lookupView, if_neg hka]
    · rw [if_neg hk]
      simp only [lookupView]
      by_cases hka : kv.1 = a
      · rw [if_pos hka, if_pos hka]
      · rw [if_neg hka, if_neg hka]
        exact ih

theorem keysOf_updateView (m : AppMap) (k : String)
    (f : ApplicationWithSecrets → ApplicationWithSecrets) :
    keysOf (updateView m k f) = keysOf m := by
  induction m with
  | nil => rfl
  | cons kv rest ih =>
    simp only [updateView]
    by_cases hk : kv.1 = k
    · rw [if_pos hk]; rfl
    · rw [if_neg hk]
      simp only [keysOf, List.map_cons] at ih ⊢
      rw [ih]

theorem lookupView_eq_none_iff (m : AppMap) (a : String) :
    lookupView m a = none ↔ a ∉ keysOf m := by
  induction m with
  | nil => simp [lookupView, keysOf]
  | cons kv rest ih =>
    simp only [keysOf, List.map_cons, List.mem_cons]
    by_cases hk : kv.1 = a
    · simp [lookupView, hk]
    · simp only [lookupView, if_neg hk]
      rw [ih]
      constructor
      · intro hn hc
        rcases hc with hc | hc
        · exact hk hc.symm
        · exact hn (by simpa [keysOf] using hc)
      · intro hn hc
        exact hn (Or.inr (by simpa [keysOf] using hc))

theorem lookupView_mergeStep_self (m : AppMap) (r : MergeRec) :
    lookupView (mergeStep m r) r.appId =
      some (pushCreds ((lookupView m r.appId).getD (emptyView r)) r) := by
  simp only [mergeStep]
  cases hm : lookupView m r.appId with
  | some v =>
    simp only [hm, Option.isSome_some, if_true]
    rw [lookupView_updateView_self, hm]
    rfl
  | none =>
    simp only [hm, Option.isSome_none, Bool.false_eq_true, if_false]
    rw [lookupView_updateView_self, lookupView_append_of_none m _ _ hm]
    simp [lookupView]

theorem lookupView_mergeStep_ne (m : AppMap) (r : MergeRec) (a : String)
    (h : r.appId ≠ a) : lookupView (mergeStep m r) a = lookupView m a := by
  simp only [mergeStep]
  cases hm : lookupView m r.appId with
  | some v =>
    simp only [hm, Option.isSome_some, if_true]
    exact lookupView_updateView_ne m r.appId a _ h
  | none =>
    simp only [hm, Option.isSome_none, Bool.false_eq_true, if_false]
    rw [lookupView_updateView_ne _ r.appId a _ h]
    cases hma : lookupView m a with
    | some w => exact lookupView_append_of_some _ _ _ _ hma
    | none =>
      rw [lookupView_append_of_none _ _ _ hma]
      simp [lookupView, h]

theorem keysOf_append_single (m : AppMap) (k : String) (v : ApplicationWithSecrets) :
    keysOf (m ++ [(k, v)]) = keysOf m ++ [k] := by
  simp [keysOf]

theorem keysOf_mergeStep (m : AppMap) (r : MergeRec) :
    keysOf (mergeStep m r) =
      if r.appId ∈ keysOf m then keysOf m else keysOf m ++ [r.appId] := by
  simp only [mergeStep]
  cases hm : lookupView m r.appId with
  | some v =>
    have hmem : r.appId ∈ keysOf m := by
      by_contra hc
      have h2 := (lookupView_eq_none_iff m r.appId).mpr hc
      rw [hm] at h2
      exact Option.noConfusion h2
    rw [if_pos hmem]
    simp only [hm, Option.isSome_some, if_true]
    exact keysOf_updateView m r.appId _
  | none =>
    have hmem : r.appId ∉ keysOf m := (lookupView_eq_none_iff m r.appId).mp hm
    rw [if_neg hmem]
    simp only [hm, Option.isSome_none, Bool.false_eq_true, if_false]
    rw [keysOf_updateView, keysOf_append_single]

theorem extendView_nil (v : ApplicationWithSecrets) : extendView v [] = v := by
  cases v
  simp [extendView, allSecrets, allCerts]

theorem extendView_pushCreds (v : ApplicationWithSecrets) (r : MergeRec)
    (hits : List MergeRec) :
    extendView (pushCreds v r) hits = extendView v (r :: hits) := by
  cases v
  simp [extendView, pushCreds, allSecrets, allCerts, List.append_assoc]

theorem recsFor_cons (a : String) (r : MergeRec) (rest : List MergeRec) :
    recsFor a (r :: rest) =
      if r.appId = a then r :: recsFor a rest else recsFor a rest := by
  by_cases h : r.appId = a <;> simp [recsFor, List.filter_cons, h]

theorem lookupView_foldl (rs : List MergeRec) :
    ∀ (m : AppMap) (a : String),
      lookupView (rs.foldl mergeStep m) a = mergeLookupSpec (lookupView m a) (recsFor a rs) := by
  induction rs with
  | nil =>
    intro m a
    simp only [List.foldl_nil, recsFor, List.filter_nil]
    cases h : lookupView m a with
    | none => rfl
    | some v => simp [mergeLookupSpec, extendView_nil]
  | cons r rest ih =>
    intro m a
    simp only [List.foldl_cons]
    rw [ih (mergeStep m r) a, recsFor_cons]
    by_cases hra : r.appId = a
    · subst hra
      rw [if_pos rfl, lookupView_mergeStep_self]
      cases hm : lookupView m r.appId with
      | some v =>
        simp only [Option.getD_some]
        simp [mergeLookupSpec, extendView_pushCreds]
      | none =>
        simp only [Option.getD_none]
        cases hr : recsFor r.appId rest with
        | nil => simp [mergeLookupSpec, extendView_pushCreds]
        | cons r2 rest2 => simp [mergeLookupSpec, extendView_pushCreds]
    · rw [if_neg hra, lookupView_mergeStep_ne _ _ _ hra]

theorem keysOf_foldl (rs : List MergeRec) :
    ∀ m : AppMap, keysOf (rs.foldl mergeStep m) = keysOf m ++ freshKeys (keysOf m) rs := by
  induction rs with
  | nil => intro m; simp [freshKeys]
  | cons r rest ih =>
    intro m
    simp only [List.foldl_cons]
    rw [ih (mergeStep m r), keysOf_mergeStep]
    by_cases hr : r.appId ∈ keysOf m
    · rw [if_pos hr]
      simp only [freshKeys, if_pos hr]
    · rw [if_neg hr]
      simp only [freshKeys, if_neg hr]
      simp [List.append_assoc]

theorem mem_freshKeys (rs : List MergeRec) :
    ∀ (seen : List String) (a : String),
      a ∈ freshKeys seen rs ↔ a ∉ seen ∧ ∃ r ∈ rs, r.appId = a := by
  induction rs with
  | nil => intro seen a; simp [freshKeys]
  | cons r rest ih =>
    intro seen a
    simp only [freshKeys]
    by_cases hr : r.appId ∈ seen
    · rw [if_pos hr, ih]
      constructor
      · rintro ⟨hn, rr, hm, he⟩
        exact ⟨hn, rr, List.mem_cons_of_mem r hm, he⟩
      · rintro ⟨hn, rr, hm, he⟩
        rcases List.mem_cons.mp hm with hrr | hrr
        · subst hrr
          exact absurd (he ▸ hr) hn
        · exact ⟨hn, rr, hrr, he⟩
    · rw [if_neg hr, List.mem_cons, ih]
      constructor
      · intro h
        rcases h with h | ⟨hn, rr, hm, he⟩
        · subst h
          exact ⟨hr, r, List.mem_cons_self r rest, rfl⟩
        · refine ⟨fun hc => hn (List.mem_append_left _ hc), rr, List.mem_cons_of_mem r hm, he⟩
      · rintro ⟨hn, rr, hm, he⟩
        rcases List.mem_cons.mp hm with hrr | hrr
        · subst hrr
          exact Or.inl he.symm
        · by_cases har : a = r.appId
          · exact Or.inl har
          · refine Or.inr ⟨?_, rr, hrr, he⟩
            intro hc
            rcases List.mem_append.mp hc with hc | hc
            · exact hn hc
            · exact har (List.mem_singleton.mp hc)

theorem freshKeys_nodup (rs : List MergeRec) :
    ∀ seen : List String, (freshKeys seen rs).Nodup := by
  induction rs with
  | nil => intro seen; simp [freshKeys]
  | cons r rest ih =>
    intro seen
    simp only [freshKeys]
    by_cases hr : r.appId ∈ seen
    · rw [if_pos hr]; exact ih seen
    · rw [if_neg hr]
      refine List.nodup_cons.mpr ⟨?_, ih _⟩
      intro hc
      have hm := (mem_freshKeys rest (seen ++ [r.appId]) r.appId).mp hc
      exact hm.1 (List.mem_append_right _ (List.mem_singleton.mpr rfl))

theorem keyedByAppId_updateView (k : String)
    (f : ApplicationWithSecrets → ApplicationWithSecrets)
    (hf : ∀ v, (f v).appId = v.appId) :
    ∀ m : AppMap, keyedByAppId m → keyedByAppId (updateView m k f) := by
  intro m
  induction m with
  | nil =>
    intro _ kv h
    simp [updateView] at h
  | cons kv0 rest ih =>
    intro hm kv h
    simp only [updateView] at h
    by_cases hk : kv0.1 = k
    · rw [if_pos hk] at h
      rcases List.mem_cons.mp h with h | h
      · rw [h]
        show (f kv0.2).appId = kv0.1
        rw [hf]
        exact hm kv0 (List.mem_cons_self _ _)
      · exact hm kv (List.mem_cons_of_mem _ h)
    · rw [if_neg hk] at h
      rcases List.mem_cons.mp h with h | h
      · rw [h]
        exact hm kv0 (List.mem_cons_self _ _)
      · exact ih (fun e he => hm e (List.mem_cons_of_mem _ he)) kv h

theorem keyedByAppId_mergeStep (m : AppMap) (r : MergeRec) (hm : keyedByAppId m) :
    keyedByAppId (mergeStep m r) := by
  have happ : keyedByAppId (m ++ [(r.appId, emptyView r)]) := by
    intro kv h
    rcases List.mem_append.mp h with h | h
    · exact hm kv h
    · rw [List.mem_singleton.mp h]
      rfl
  simp only [mergeStep]
  by_cases hs : (lookupView m r.appId).isSome = true
  · rw [if_pos hs]
    exact keyedByAppId_updateView r.appId (fun v => pushCreds v r) (fun v => rfl) m hm
  · rw [if_neg hs]
    exact keyedByAppId_updateView r.appId (fun v => pushCreds v r) (fun v => rfl) _ happ

theorem keyedByAppId_foldl (rs : List MergeRec) :
    ∀ m : AppMap, keyedByAppId m → keyedByAppId (rs.foldl mergeStep m) := by
  induction rs with
  | nil => intro m hm; exact hm
  | cons r rest ih =>
    intro m hm
    exact ih _ (keyedByAppId_mergeStep m r hm)

theorem lookupView_of_mem (m : AppMap) (hnd : (keysOf m).Nodup)
    (a : String) (v : ApplicationWithSecrets) (h : (a, v) ∈ m) :
    lookupView m a = some v := by
  induction m with
  | nil => simp at h
  | cons kv rest ih =>
    have hnd2 : (kv.1 :: keysOf rest).Nodup := hnd
    rcases List.mem_cons.mp h with h | h
    · rw [← h]
      simp [lookupView]
    · have ha : a ∈ keysOf rest := by
        simp only [keysOf, List.mem_map]
        exact ⟨(a, v), h, rfl⟩
      have hk : ¬ kv.1 = a := by
        intro hc
        exact (List.nodup_cons.mp hnd2).1 (hc ▸ ha)
      simp only [lookupView, if_neg hk]
      exact ih (List.nodup_cons.mp hnd2).2 h

theorem mem_of_lookupView (m : AppMap) (a : String) (v : ApplicationWithSecrets)
    (h : lookupView m a = some v) : (a, v) ∈ m := by
  induction m with
  | nil => simp [lookupView] at h
  | cons kv rest ih =>
    by_cases hk : kv.1 = a
    · simp only [lookupView, if_pos hk] at h
      have hv : kv.2 = v := Option.some_inj.mp h
      refine List.mem_cons.mpr (Or.inl ?_)
      rw [← hk, ← hv]
    · simp only [lookupView, if_neg hk] at h
      exact List.mem_cons_of_mem _ (ih h)

theorem mem_values_iff (m : AppMap) (hnd : (keysOf m).Nodup) (v : ApplicationWithSecrets) :
    v ∈ m.map Prod.snd ↔ ∃ a, lookupView m a = some v := by
  constructor
  · intro h
    rcases List.mem_map.mp h with ⟨kv, hkv, he⟩
    refine ⟨kv.1, lookupView_of_mem m hnd kv.1 v ?_⟩
    rw [← he]
    exact hkv
  · rintro ⟨a, ha⟩
    exact List.mem_map.mpr ⟨(a, v), mem_of_lookupView m a v ha, rfl⟩

theorem values_filter_key (m : AppMap) :
    (keysOf m).Nodup → keyedByAppId m → ∀ (a : String) (v : ApplicationWithSecrets),
      lookupView m a = some v →
      (m.map Prod.snd).filter (fun w => decide (w.appId = a)) = [v] := by
  induction m with
  | nil =>
    intro _ _ a v h
    simp [lookupView] at h
  | cons kv rest ih =>
    intro hnd hco a v h
    have hnd2 : (kv.1 :: keysOf rest).Nodup := hnd
    have hndr : (keysOf rest).Nodup := (List.nodup_cons.mp hnd2).2
    have hcor : keyedByAppId rest := fun e he => hco e (List.mem_cons_of_mem _ he)
    by_cases hk : kv.1 = a
    · simp only [lookupView, if_pos hk] at h
      have hv : kv.2 = v := Option.some_inj.mp h
      have hhead : kv.2.appId = a := by
        rw [hco kv (List.mem_cons_self _ _), hk]
      have hrest : (rest.map Prod.snd).filter (fun w => decide (w.appId = a)) = [] := by
        rw [List.filter_eq_nil_iff]
        intro w hw
        rcases List.mem_map.mp hw with ⟨e, he, hew⟩
        have hwk : w.appId = e.1 := by
          rw [← hew]
          exact hcor e he
        have hek : e.1 ∈ keysOf rest := by
          simp only [keysOf, List.mem_map]
          exact ⟨e, he, rfl⟩
        simp only [decide_eq_true_eq]
        intro hc
        exact (List.nodup_cons.mp hnd2).1 (hk ▸ (hc ▸ (hwk ▸ hek)))
      simp only [List.map_cons, List.filter_cons]
      rw [if_pos (by simp [hhead]), hrest, hv]
    · simp only [lookupView, if_neg hk] at h
      have hhead : ¬ kv.2.appId = a := by
        rw [hco kv (List.mem_cons_self _ _)]
        exact hk
      simp only [List.map_cons, List.filter_cons]
      rw [if_neg (by simp [hhead])]
      exact ih hndr hcor a v h

theorem allSecrets_append (l1 l2 : List MergeRec) :
    allSecrets (l1 ++ l2) = allSecrets l1 ++ allSecrets l2 := by
  induction l1 with
  | nil => rfl
  | cons r rest ih => simp [allSecrets, ih]

theorem allCerts_append (l1 l2 : List MergeRec) :
    allCerts (l1 ++ l2) = allCerts l1 ++ allCerts l2 := by
  induction l1 with
  | nil => rfl
  | cons r rest ih => simp [allCerts, ih]

theorem filter_of_map {α β : Type} (f : α → β) (p : β → Bool) (l : List α) :
    (l.map f).filter p = (l.filter fun x => p (f x)).map f := by
  induction l with
  | nil => rfl
  | cons x xs ih =>
    simp only [List.map_cons, List.filter_cons]
    cases hp : p (f x) with
    | true => simp [hp, ih]
    | false => simp [hp, ih]

theorem getAll_eq_foldl (now : Int) (sps : List ServicePrincipal) (apps : List Application) :
    getAllApplicationsWithSecrets now sps apps =
      ((mergeRecsOf now sps apps).foldl mergeStep []).map Prod.snd := by
  unfold getAllApplicationsWithSecrets mergeRecsOf
  rw [List.foldl_append, List.foldl_map, List.foldl_map]

theorem recsFor_mergeRecsOf (now : Int) (a : String) (sps : List ServicePrincipal)
    (apps : List Application) :
    recsFor a (mergeRecsOf now sps apps) = spRecsFor now a sps ++ appRecsFor now a apps := by
  unfold recsFor mergeRecsOf spRecsFor appRecsFor
  rw [List.filter_append, filter_of_map, filter_of_map]
  rfl

theorem find?_eq_head_filter {α : Type} (p : α → Bool) (l : List α) :
    l.find? p = (l.filter p).head? := by
  induction l with
  | nil => rfl
  | cons x xs ih =>
    cases hp : p x with
    | true =>
      rw [List.find?_cons_of_pos _ hp, List.filter_cons, if_pos hp]
      rfl
    | false =>
      rw [List.find?_cons_of_neg _ (by simp [hp]), List.filter_cons, if_neg (by simp [hp])]
      exact ih

theorem keysOf_mergeMap_nodup (rs : List MergeRec) :
    (keysOf (rs.foldl mergeStep ([] : AppMap))).Nodup := by
  have h := keysOf_foldl rs []
  have he : keysOf ([] : AppMap) = [] := rfl
  rw [he, List.nil_append] at h
  rw [h]
  exact freshKeys_nodup rs []

theorem mergeMap_keyed (rs : List MergeRec) :
    keyedByAppId (rs.foldl mergeStep ([] : AppMap)) :=
  keyedByAppId_foldl rs [] (fun kv h => by simp at h)

theorem mergeMap_values_nodup (rs : List MergeRec) :
    ((rs.foldl mergeStep ([] : AppMap)).map Prod.snd).Nodup := by
  have hmapped : (((rs.foldl mergeStep ([] : AppMap)).map Prod.snd).map
      ApplicationWithSecrets.appId) = keysOf (rs.foldl mergeStep ([] : AppMap)) := by
    rw [List.map_map]
    exact List.map_congr_left fun kv hkv => mergeMap_keyed rs kv hkv
  exact List.Nodup.of_map _ (hmapped ▸ keysOf_mergeMap_nodup rs)

theorem processPasswordCredentials_wf (now : Int) (credentials : List PasswordCredential)
    (source : CredSource) :
    ∀ s ∈ processPasswordCredentials now credentials source,
      (s.isExpired = true ↔ s.daysUntilExpiration ≤ 0) := by
  intro s hs
  unfold processPasswordCredentials at hs
  rcases List.mem_map.mp hs with ⟨cred, _, he⟩
  rw [← he]
  simp

theorem processKeyCredentials_wf (now : Int) (credentials : List KeyCredential)
    (source : CredSource) :
    ∀ c ∈ processKeyCredentials now credentials source,
      (c.isExpired = true ↔ c.daysUntilExpiration ≤ 0) := by
  intro c hc
  unfold processKeyCredentials at hc
  rcases List.mem_map.mp hc with ⟨cred, _, he⟩
  rw [← he]
  simp

theorem mergeRecsOf_wf (now : Int) (sps : List ServicePrincipal) (apps : List Application) :
    ∀ r ∈ mergeRecsOf now sps apps,
      (∀ s ∈ r.secrets, (s.isExpired = true ↔ s.daysUntilExpiration ≤ 0)) ∧
      (∀ c ∈ r.certificates, (c.isExpired = true ↔ c.daysUntilExpiration ≤ 0)) := by
  intro r hr
  rcases List.mem_append.mp hr with hr | hr
  · rcases List.mem_map.mp hr with ⟨sp, _, he⟩
    rw [← he]
    exact ⟨processPasswordCredentials_wf now sp.passwordCredentials _,
      processKeyCredentials_wf now sp.keyCredentials _⟩
  · rcases List.mem_map.mp hr with ⟨ap, _, he⟩
    rw [← he]
    exact ⟨processPasswordCredentials_wf now ap.passwordCredentials _,
      processKeyCredentials_wf now ap.keyCredentials _⟩

theorem mem_allSecrets (hits : List MergeRec) (s : SecretInfo)
    (h : s ∈ allSecrets hits) : ∃ r ∈ hits, s ∈ r.secrets := by
  induction hits with
  | nil => simp [allSecrets] at h
  | cons r rest ih =>
    simp only [allSecrets] at h
    rcases List.mem_append.mp h with h | h
    · exact ⟨r, List.mem_cons_self _ _, h⟩
    · rcases ih h with ⟨r2, hr2, hs⟩
      exact ⟨r2, List.mem_cons_of_mem _ hr2, hs⟩

theorem mem_allCerts (hits : List MergeRec) (c : CertificateInfo)
    (h : c ∈ allCerts hits) : ∃ r ∈ hits, c ∈ r.certificates := by
  induction hits with
  | nil => simp [allCerts] at h
  | cons r rest ih =>
    simp only [allCerts] at h
    rcases List.mem_append.mp h with h | h
    · exact ⟨r, List.mem_cons_self _ _, h⟩
    · rcases ih h with ⟨r2, hr2, hs⟩
      exact ⟨r2, List.mem_cons_of_mem _ hr2, hs⟩

theorem mergeMap_lookup_shape (rs : List MergeRec) (a : String) (v : ApplicationWithSecrets)
    (h : lookupView (rs.foldl mergeStep ([] : AppMap)) a = some v) :
    ∃ r0 rest, recsFor a rs = r0 :: rest ∧
      v = extendView (emptyView r0) (r0 :: rest) := by
  have hl := lookupView_foldl rs [] a
  rw [h] at hl
  cases hr : recsFor a rs with
  | nil =>
    rw [hr] at hl
    simp [mergeLookupSpec, lookupView] at hl
  | cons r0 rest =>
    rw [hr] at hl
    simp only [mergeLookupSpec, lookupView] at hl
    exact ⟨r0, rest, rfl, Option.some_inj.mp hl⟩

/-- C1: every credential descriptor (secret or certificate) in every view
produced by the reconciliation pipeline satisfies
isExpired = (daysUntilExpiration ≤ 0); both fields are fixed when the
descriptor is built and the views are immutable values of the run. -/
theorem credential_isExpired_invariant (now : Int) (sps : List ServicePrincipal)
    (apps : List Application) :
    ∀ v ∈ getAllApplicationsWithSecrets now sps apps,
      (∀ s ∈ v.secrets, (s.isExpired = true ↔ s.daysUntilExpiration ≤ 0)) ∧
      (∀ c ∈ v.certificates, (c.isExpired = true ↔ c.daysUntilExpiration ≤ 0)) := by
  intro v hv
  rw [getAll_eq_foldl] at hv
  rcases (mem_values_iff _ (keysOf_mergeMap_nodup (mergeRecsOf now sps apps)) v).mp hv
    with ⟨a, ha⟩
  rcases mergeMap_lookup_shape _ a v ha with ⟨r0, rest, hr, hveq⟩
  have hsub : ∀ r ∈ r0 :: rest, r ∈ mergeRecsOf now sps apps := by
    intro r hrm
    have h2 : r ∈ recsFor a (mergeRecsOf now sps apps) := hr ▸ hrm
    simp only [recsFor] at h2
    exact List.mem_of_mem_filter h2
  constructor
  · intro s hs
    rw [hveq] at hs
    simp only [extendView, emptyView, List.nil_append] at hs
    rcases mem_allSecrets _ _ hs with ⟨r, hrmem, hsr⟩
    exact (mergeRecsOf_wf now sps apps r (hsub r hrmem)).1 s hsr
  · intro c hc
    rw [hveq] at hc
    simp only [extendView, emptyView, List.nil_append] at hc
    rcases mem_allCerts _ _ hc with ⟨r, hrmem, hcr⟩
    exact (mergeRecsOf_wf now sps apps r (hsub r hrmem)).2 c hcr

/-- Witness for C1: the pipeline run on the sample service principal and
application produces the view vX, whose credentials satisfy the invariant. -/
theorem credential_isExpired_invariant_witness :
    vX ∈ getAllApplicationsWithSecrets 0 [spX] [apX] ∧
    (∀ s ∈ vX.secrets, (s.isExpired = true ↔ s.daysUntilExpiration ≤ 0)) ∧
    (∀ c ∈ vX.certificates, (c.isExpired = true ↔ c.daysUntilExpiration ≤ 0)) := by
  have hm : vX ∈ getAllApplicationsWithSecrets 0 [spX] [apX] := by decide
  exact ⟨hm, credential_isExpired_invariant 0 [spX] [apX] vX hm⟩

/-- C2: an application id present in both input collections yields exactly one
merged view; its secret and certificate lists are the concatenation of the
credentials contributed by the service-principal records with that id followed
by those contributed by the application records with that id; its object id
and display name come from the first service-principal record with that id,
because service principals are processed first. -/
theorem merged_view_for_shared_appId (now : Int) (sps : List ServicePrincipal)
    (apps : List Application) (a : String)
    (hsp : ∃ sp ∈ sps, sp.appId = a) (happ : ∃ ap ∈ apps, ap.appId = a) :
    ∃ v, (getAllApplicationsWithSecrets now sps apps).filter
        (fun w => decide (w.appId = a)) = [v] ∧
      v.secrets = allSecrets (spRecsFor now a sps) ++ allSecrets (appRecsFor now a apps) ∧
      v.certificates = allCerts (spRecsFor now a sps) ++ allCerts (appRecsFor now a apps) ∧
      ∃ sp0, sps.find? (fun sp => decide (sp.appId = a)) = some sp0 ∧
        v.id = sp0.id ∧ v.displayName = sp0.displayName ∧ v.appId = sp0.appId ∧
        sp0.appId = a := by
  obtain ⟨sp1, hsp1, hspa⟩ := hsp
  have hspf : sp1 ∈ sps.filter (fun sp => decide (sp.appId = a)) :=
    List.mem_filter.mpr ⟨hsp1, by simp [hspa]⟩
  cases hfil : sps.filter (fun sp => decide (sp.appId = a)) with
  | nil =>
    rw [hfil] at hspf
    simp at hspf
  | cons sp0 spsrest =>
    have hsp0a : sp0.appId = a := by
      have : sp0 ∈ sps.filter (fun sp => decide (sp.appId = a)) := by
        rw [hfil]
        exact List.mem_cons_self _ _
      simpa using (List.mem_filter.mp this).2
    have hspRecs : spRecsFor now a sps =
        ServicePrincipal.toRec now sp0 :: spsrest.map (ServicePrincipal.toRec now) := by
      unfold spRecsFor
      rw [hfil]
      rfl
    have hrec : recsFor a (mergeRecsOf now sps apps) =
        ServicePrincipal.toRec now sp0 ::
          (spsrest.map (ServicePrincipal.toRec now) ++ appRecsFor now a apps) := by
      rw [recsFor_mergeRecsOf, hspRecs]
      rfl
    have hlook := lookupView_foldl (mergeRecsOf now sps apps) [] a
    rw [hrec] at hlook
    simp only [mergeLookupSpec, lookupView] at hlook
    refine ⟨extendView (emptyView (ServicePrincipal.toRec now sp0))
        (ServicePrincipal.toRec now sp0 ::
          (spsrest.map (ServicePrincipal.toRec now) ++ appRecsFor now a apps)),
      ?_, ?_, ?_, sp0, ?_, rfl, rfl, rfl, hsp0a⟩
    · rw [getAll_eq_foldl]
      exact values_filter_key _ (keysOf_mergeMap_nodup (mergeRecsOf now sps apps))
        (mergeMap_keyed (mergeRecsOf now sps apps)) a _ hlook
    · show ([] : List SecretInfo) ++ allSecrets (ServicePrincipal.toRec now sp0 ::
        (spsrest.map (ServicePrincipal.toRec now) ++ appRecsFor now a apps)) = _
      rw [List.nil_append, show (ServicePrincipal.toRec now sp0 ::
        (spsrest.map (ServicePrincipal.toRec now) ++ appRecsFor now a apps)) =
          spRecsFor now a sps ++ appRecsFor now a apps by rw [hspRecs]; rfl,
        allSecrets_append]
    · show ([] : List CertificateInfo) ++ allCerts (ServicePrincipal.toRec now sp0 ::
        (spsrest.map (ServicePrincipal.toRec now) ++ appRecsFor now a apps)) = _
      rw [List.nil_append, show (ServicePrincipal.toRec now sp0 ::
        (spsrest.map (ServicePrincipal.toRec now) ++ appRecsFor now a apps)) =
          spRecsFor now a sps ++ appRecsFor now a apps by rw [hspRecs]; rfl,
        allCerts_append]
    · rw [find?_eq_head_filter, hfil]
      rfl

/-- Witness for C2: appId x appears in both sample collections; the merged
output carries exactly one view for it. -/
theorem merged_view_for_shared_appId_witness :
    ∃ v, (getAllApplicationsWithSecrets 0 [spX] [apX]).filter
        (fun w => decide (w.appId = "x")) = [v] ∧
      v.secrets = allSecrets (spRecsFor 0 "x" [spX]) ++ allSecrets (appRecsFor 0 "x" [apX]) ∧
      v.certificates = allCerts (spRecsFor 0 "x" [spX]) ++ allCerts (appRecsFor 0 "x" [apX]) ∧
      ∃ sp0, [spX].find? (fun sp => decide (sp.appId = "x")) = some sp0 ∧
        v.id = sp0.id ∧ v.displayName = sp0.displayName ∧ v.appId = sp0.appId ∧
        sp0.appId = "x" :=
  merged_view_for_shared_appId 0 [spX] [apX] "x"
    ⟨spX, by decide, by decide⟩ ⟨apX, by decide, by decide⟩

theorem perm_eq_of_length_le_one {α : Type} {l1 l2 : List α}
    (h : l1.Perm l2) (hl : l1.length ≤ 1) : l1 = l2 := by
  cases l1 with
  | nil => exact (List.nil_perm.mp h).symm
  | cons x xs =>
    cases xs with
    | nil => exact List.singleton_perm.mp h
    | cons y ys => simp at hl

theorem filter_length_le_one_of_nodup_map {α β : Type} [DecidableEq β] (f : α → β)
    (l : List α) (h : (l.map f).Nodup) (a : β) :
    (l.filter fun x => decide (f x = a)).length ≤ 1 := by
  induction l with
  | nil => simp
  | cons x xs ih =>
    simp only [List.map_cons, List.nodup_cons] at h
    rw [List.filter_cons]
    by_cases hx : f x = a
    · rw [if_pos (by simp [hx])]
      have hz : (xs.filter fun y => decide (f y = a)).length = 0 := by
        rw [List.length_eq_zero, List.filter_eq_nil_iff]
        intro y hy
        simp only [decide_eq_true_eq]
        intro hc
        apply h.1
        rw [hx, ← hc]
        exact List.mem_map_of_mem f hy
      simp [hz]
    · rw [if_neg (by simp [hx])]
      exact ih h.2

/-- C5 amended: when appIds are unique within the service-principal collection
and within the application collection, permuting either input collection
yields the same set of Application Views (the output list up to permutation,
with identical views). -/
theorem reconciliation_perm_invariant (now : Int)
    (sps sps2 : List ServicePrincipal) (apps apps2 : List Application)
    (hs : sps.Perm sps2) (ha : apps.Perm apps2)
    (hnds : (sps.map ServicePrincipal.appId).Nodup)
    (hnda : (apps.map Application.appId).Nodup) :
    (getAllApplicationsWithSecrets now sps apps).Perm
      (getAllApplicationsWithSecrets now sps2 apps2) := by
  have hfilsp : ∀ a : String, sps.filter (fun sp => decide (sp.appId = a)) =
      sps2.filter (fun sp => decide (sp.appId = a)) := by
    intro a
    exact perm_eq_of_length_le_one (hs.filter _)
      (filter_length_le_one_of_nodup_map ServicePrincipal.appId sps hnds a)
  have hfilap : ∀ a : String, apps.filter (fun ap => decide (ap.appId = a)) =
      apps2.filter (fun ap => decide (ap.appId = a)) := by
    intro a
    exact perm_eq_of_length_le_one (ha.filter _)
      (filter_length_le_one_of_nodup_map Application.appId apps hnda a)
  have hrec : ∀ a : String, recsFor a (mergeRecsOf now sps apps) =
      recsFor a (mergeRecsOf now sps2 apps2) := by
    intro a
    rw [recsFor_mergeRecsOf, recsFor_mergeRecsOf]
    unfold spRecsFor appRecsFor
    rw [hfilsp a, hfilap a]
  have hlook : ∀ a : String,
      lookupView ((mergeRecsOf now sps apps).foldl mergeStep []) a =
        lookupView ((mergeRecsOf now sps2 apps2).foldl mergeStep []) a := by
    intro a
    rw [lookupView_foldl, lookupView_foldl, hrec a]
  rw [getAll_eq_foldl, getAll_eq_foldl,
    List.perm_ext_iff_of_nodup (mergeMap_values_nodup _) (mergeMap_values_nodup _)]
  intro v
  rw [mem_values_iff _ (keysOf_mergeMap_nodup _) v,
    mem_values_iff _ (keysOf_mergeMap_nodup _) v]
  constructor
  · rintro ⟨a, hv⟩
    exact ⟨a, (hlook a) ▸ hv⟩
  · rintro ⟨a, hv⟩
    exact ⟨a, (hlook a).symm ▸ hv⟩

/-- Witness for C5 amended: swapping two service principals with distinct
appIds permutes the output views without changing them. -/
theorem reconciliation_perm_invariant_witness :
    (getAllApplicationsWithSecrets 0 [spX, spY] [apX]).Perm
      (getAllApplicationsWithSecrets 0 [spY, spX] [apX]) :=
  reconciliation_perm_invariant 0 [spX, spY] [spY, spX] [apX] [apX]
    (by decide) (by decide) (by decide) (by decide)

/-- C5 counterexample: with two service principals sharing one appId, swapping
them changes the surviving view's identity fields, so the set of views is not
preserved under input reordering (their credential lists are empty, so the
allowance for credential-array ordering cannot account for the difference). -/
theorem reconciliation_perm_counterexample :
    ([spA, spB].Perm [spB, spA]) ∧
    (getAllApplicationsWithSecrets 0 [spA, spB] []).map
      ApplicationWithSecrets.displayName = ["A"] ∧
    (getAllApplicationsWithSecrets 0 [spB, spA] []).map
      ApplicationWithSecrets.displayName = ["B"] ∧
    ¬ (getAllApplicationsWithSecrets 0 [spA, spB] []).Perm
        (getAllApplicationsWithSecrets 0 [spB, spA] []) := by
  decide

theorem secretMatches_iff (days : List Int) (s : SecretInfo) :
    secretMatches days s = true ↔ MatchingSecret days s := by
  unfold secretMatches MatchingSecret
  rw [Bool.or_eq_true]
  constructor
  · rintro (h | h)
    · right
      simpa [List.contains] using List.elem_iff.mp (by simpa [List.contains] using h)
    · left
      exact h
  · rintro (h | h)
    · right
      exact h
    · left
      simpa [List.contains] using List.elem_iff.mpr h

theorem certMatches_iff (days : List Int) (c : CertificateInfo) :
    certMatches days c = true ↔ MatchingCert days c := by
  unfold certMatches MatchingCert
  rw [Bool.or_eq_true]
  constructor
  · rintro (h | h)
    · right
      simpa [List.contains] using List.elem_iff.mp (by simpa [List.contains] using h)
    · left
      exact h
  · rintro (h | h)
    · right
      exact h
    · left
      simpa [List.contains] using List.elem_iff.mpr h

theorem hasMatch_iff (days : List Int) (app : ApplicationWithSecrets) :
    (decide (0 < (app.secrets.filter (secretMatches days)).length) ||
      decide (0 < (app.certificates.filter (certMatches days)).length)) = true ↔
    HasMatch days app := by
  rw [Bool.or_eq_true, decide_eq_true_eq, decide_eq_true_eq]
  unfold HasMatch
  constructor
  · rintro (h | h)
    · left
      obtain ⟨s, hs⟩ := List.length_pos_iff_exists_mem.mp h
      rcases List.mem_filter.mp hs with ⟨hmem, hmat⟩
      exact ⟨s, hmem, (secretMatches_iff days s).mp hmat⟩
    · right
      obtain ⟨c, hc⟩ := List.length_pos_iff_exists_mem.mp h
      rcases List.mem_filter.mp hc with ⟨hmem, hmat⟩
      exact ⟨c, hmem, (certMatches_iff days c).mp hmat⟩
  · rintro (⟨s, hmem, hmat⟩ | ⟨c, hmem, hmat⟩)
    · left
      exact List.length_pos_iff_exists_mem.mpr
        ⟨s, List.mem_filter.mpr ⟨hmem, (secretMatches_iff days s).mpr hmat⟩⟩
    · right
      exact List.length_pos_iff_exists_mem.mpr
        ⟨c, List.mem_filter.mpr ⟨hmem, (certMatches_iff days c).mpr hmat⟩⟩

theorem viewRestricts_restrict (days : List Int) (app : ApplicationWithSecrets) :
    ViewRestricts days app
      { app with
          secrets := app.secrets.filter (secretMatches days)
          certificates := app.certificates.filter (certMatches days) } := by
  refine ⟨rfl, rfl, rfl, ?_, ?_⟩
  · intro s
    show s ∈ app.secrets.filter (secretMatches days) ↔ _
    rw [List.mem_filter, secretMatches_iff]
  · intro c
    show c ∈ app.certificates.filter (certMatches days) ↔ _
    rw [List.mem_filter, certMatches_iff]

/-- C3: a credential matches iff it is expired or its days-to-expiration is a
threshold; a view is in the filter's output iff it is one of the input views
with at least one matching credential, restricted to exactly its matching
credentials; with an empty threshold set only already-expired credentials
match. -/
theorem threshold_filter_spec (days : List Int) (allApps : List ApplicationWithSecrets) :
    (∀ s : SecretInfo, secretMatches days s = true ↔ MatchingSecret days s) ∧
    (∀ c : CertificateInfo, certMatches days c = true ↔ MatchingCert days c) ∧
    (∀ w ∈ getApplicationsExpiringInDays days allApps,
      ∃ app ∈ allApps, HasMatch days app ∧ ViewRestricts days app w) ∧
    (∀ app ∈ allApps, HasMatch days app →
      ∃ w ∈ getApplicationsExpiringInDays days allApps, ViewRestricts days app w) ∧
    (∀ s : SecretInfo, secretMatches [] s = s.isExpired) ∧
    (∀ c : CertificateInfo, certMatches [] c = c.isExpired) := by
  refine ⟨secretMatches_iff days, certMatches_iff days, ?_, ?_, fun s => rfl, fun c => rfl⟩
  · intro w hw
    unfold getApplicationsExpiringInDays at hw
    rcases List.mem_map.mp hw with ⟨app, happ, hwe⟩
    rcases List.mem_filter.mp happ with ⟨hmem, hcond⟩
    refine ⟨app, hmem, (hasMatch_iff days app).mp hcond, ?_⟩
    rw [← hwe]
    exact viewRestricts_restrict days app
  · intro app hmem hmatch
    refine ⟨{ app with
        secrets := app.secrets.filter (secretMatches days)
        certificates := app.certificates.filter (certMatches days) }, ?_,
      viewRestricts_restrict days app⟩
    unfold getApplicationsExpiringInDays
    exact List.mem_map.mpr
      ⟨app, List.mem_filter.mpr ⟨hmem, (hasMatch_iff days app).mpr hmatch⟩, rfl⟩

/-- Witness for C3: with thresholds containing only 5, the sample view is kept
and restricted to its five-day secret; the certificate is dropped. -/
theorem threshold_filter_spec_witness :
    wX ∈ getApplicationsExpiringInDays [5] [vX] ∧
    ∃ app ∈ [vX], HasMatch [5] app ∧ ViewRestricts [5] app wX := by
  have hm : wX ∈ getApplicationsExpiringInDays [5] [vX] := by decide
  exact ⟨hm, (threshold_filter_spec [5] [vX]).2.2.1 wX hm⟩

theorem contains_filter_pos (x : Int) (hx : 0 < x) (days : List Int) :
    (days.filter fun d => decide (0 < d)).contains x = days.contains x := by
  induction days with
  | nil => rfl
  | cons d rest ih =>
    rw [List.filter_cons]
    by_cases hd : 0 < d
    · rw [if_pos (by simp [hd])]
      simp only [List.contains_cons, ih]
    · rw [if_neg (by simp [hd])]
      rw [ih]
      have hne : (x == d) = false := beq_eq_false_iff_ne.mpr (by omega)
      rw [List.contains_cons, hne, Bool.false_or]

theorem secretMatches_drop_nonpos (days : List Int) (s : SecretInfo)
    (hinv : s.isExpired = true ↔ s.daysUntilExpiration ≤ 0) :
    secretMatches days s = secretMatches (days.filter fun d => decide (0 < d)) s := by
  unfold secretMatches
  cases hexp : s.isExpired with
  | true => simp
  | false =>
    simp only [Bool.or_false]
    have hd : 0 < s.daysUntilExpiration := by
      by_contra hc
      have h2 := hinv.mpr (by omega)
      rw [hexp] at h2
      exact Bool.noConfusion h2
    rw [contains_filter_pos _ hd]

theorem certMatches_drop_nonpos (days : List Int) (c : CertificateInfo)
    (hinv : c.isExpired = true ↔ c.daysUntilExpiration ≤ 0) :
    certMatches days c = certMatches (days.filter fun d => decide (0 < d)) c := by
  unfold certMatches
  cases hexp : c.isExpired with
  | true => simp
  | false =>
    simp only [Bool.or_false]
    have hd : 0 < c.daysUntilExpiration := by
      by_contra hc
      have h2 := hinv.mpr (by omega)
      rw [hexp] at h2
      exact Bool.noConfusion h2
    rw [contains_filter_pos _ hd]

/-- C10: on views satisfying the isExpired invariant, the threshold filter is
unchanged by removing the non-positive thresholds: filtering with T equals
filtering with T restricted to its strictly positive members, because a
credential whose days-to-expiration is non-positive is expired and always
matches. -/
theorem nonpositive_thresholds_redundant (days : List Int)
    (allApps : List ApplicationWithSecrets)
    (hinv : ∀ v ∈ allApps,
      (∀ s ∈ v.secrets, (s.isExpired = true ↔ s.daysUntilExpiration ≤ 0)) ∧
      (∀ c ∈ v.certificates, (c.isExpired = true ↔ c.daysUntilExpiration ≤ 0))) :
    getApplicationsExpiringInDays days allApps =
      getApplicationsExpiringInDays (days.filter fun d => decide (0 < d)) allApps := by
  have hsec : ∀ v ∈ allApps, v.secrets.filter (secretMatches days) =
      v.secrets.filter (secretMatches (days.filter fun d => decide (0 < d))) := by
    intro v hv
    apply List.filter_congr
    intro s hs
    exact secretMatches_drop_nonpos days s ((hinv v hv).1 s hs)
  have hcert : ∀ v ∈ allApps, v.certificates.filter (certMatches days) =
      v.certificates.filter (certMatches (days.filter fun d => decide (0 < d))) := by
    intro v hv
    apply List.filter_congr
    intro c hc
    exact certMatches_drop_nonpos days c ((hinv v hv).2 c hc)
  unfold getApplicationsExpiringInDays
  have hfil : allApps.filter (fun app =>
      decide (0 < (app.secrets.filter (secretMatches days)).length) ||
      decide (0 < (app.certificates.filter (certMatches days)).length)) =
    allApps.filter (fun app =>
      decide (0 < (app.secrets.filter
        (secretMatches (days.filter fun d => decide (0 < d)))).length) ||
      decide (0 < (app.certificates.filter
        (certMatches (days.filter fun d => decide (0 < d)))).length)) := by
    apply List.filter_congr
    intro app hap
    rw [hsec app hap, hcert app hap]
  rw [hfil]
  apply List.map_congr_left
  intro app hap
  have hap2 : app ∈ allApps := List.mem_of_mem_filter hap
  rw [hsec app hap2, hcert app hap2]

/-- Witness for C10: on the sample view, filtering with thresholds 0, 5, -3
equals filtering with the strictly positive remainder. -/
theorem nonpositive_thresholds_redundant_witness :
    getApplicationsExpiringInDays [0, 5, -3] [vX] =
      getApplicationsExpiringInDays
        (([0, 5, -3] : List Int).filter fun d => decide (0 < d)) [vX] :=
  nonpositive_thresholds_redundant [0, 5, -3] [vX] (by decide)

end Checker
